import Mathlib

/-!
Verification development for the git-fresh command-line tool.

The development shallowly embeds the TypeScript sources (src/index.ts and
src/cli.ts, plus the older variant of the main module) into Lean:

- A directory tree is the mutual inductive FsTree / FsEntries; the entries of a
  directory are an ordered association list of (name, subtree), mirroring the
  order in which readdirSync lists them.
- A filesystem path is a list of name segments (FsPath).  The TypeScript code
  works with slash-joined relative path strings such as "a/b/c"; since real
  filesystem names never contain a slash, the string "p0/p1/.../pk" corresponds
  bijectively to the segment list [p0, p1, ..., pk], string equality corresponds
  to list equality, and the test f.startsWith (q ++ "/") used by the wipe
  executor corresponds to q being a proper segment-wise prefix of f
  (startsWithDir below).
- Filesystem side effects are made explicit: the wipe executor takes the
  current tree and returns the tree left on disk, together with the ordered
  list of events it performed (an entry removed, or a console warning that an
  entry could not be removed).  The environment is modelled by the set of
  paths whose removal fails (rmSync or statSync throwing, e.g. permission
  errors); for such an entry the catch block fires, the entry stays on disk
  and a warning is emitted, exactly as in the source.
- The external git collaborator (stash, restore, pop) is out of scope for the
  spec and is modelled at its interface only; those definitions carry a
  doc comment starting with the words Modelled from the spec.
-/

mutual

/-- A node of the file system: a plain file with its content, or a directory
with an ordered list of named entries. -/
inductive FsTree where
  | file (content : String) : FsTree
  | dir (children : FsEntries) : FsTree

/-- Ordered list of named entries of a directory, as listed by readdirSync. -/
inductive FsEntries where
  | nil : FsEntries
  | cons (name : String) (tree : FsTree) (rest : FsEntries) : FsEntries

end

/-- A relative path, as its list of name segments; the TypeScript sources use
the slash-joined string form. -/
abbrev FsPath := List String

/-- Membership of a path in a list of paths, modelling the JavaScript test
ignoredSet.has(itemPath) on a set of path strings. -/
def pathIn (p : FsPath) : List FsPath → Bool
  | [] => false
  | q :: qs => p == q || pathIn p qs

/-- Lookup of one name among the entries of a directory (first match). -/
def findEntry : FsEntries → String → Option FsTree
  | .nil, _ => none
  | .cons n t r, name => if n == name then some t else findEntry r name

/-- Whether a directory has an entry of the given name. -/
def hasEntry (e : FsEntries) (name : String) : Bool :=
  (findEntry e name).isSome

/-- Lookup of a path in a tree given by its root entries; none for the empty
path and for paths that descend into a file or a missing entry. -/
def lookupPath : FsEntries → FsPath → Option FsTree
  | _, [] => none
  | e, [n] => findEntry e n
  | e, n :: rest =>
    match findEntry e n with
    | some (.dir cs) => lookupPath cs rest
    | _ => none
termination_by structural _ p => p

/-- Embedding of the string test f.startsWith (q ++ "/") on slash-joined
paths: q is a proper segment-wise prefix of f. -/
def startsWithDir (f q : FsPath) : Bool :=
  match q, f with
  | [], [] => false
  | [], _ :: _ => true
  | _ :: _, [] => false
  | a :: as, b :: bs => a == b && startsWithDir bs as

/-- Embedding of shouldPreservePath from removeAllExceptGitAndIgnored in
src/index.ts: always preserve the entry named .git at the repository root,
preserve an exact member of the ignored set, and preserve any path that some
ignored file starts with (an ancestor directory of an ignored file). -/
def shouldPreservePath (ignoredFiles : List FsPath) (itemPath : FsPath) : Bool :=
  itemPath == [".git"] ||
  pathIn itemPath ignoredFiles ||
  ignoredFiles.any (fun ignoredFile => startsWithDir ignoredFile itemPath)

/-- One observable action of the wipe executor: an entry was removed from
disk, or a console warning that the entry could not be removed. -/
inductive WipeEvent where
  | removed (path : FsPath)
  | warned (path : FsPath)
deriving DecidableEq

/-- Embedding of processDirectory from removeAllExceptGitAndIgnored in
src/index.ts.  The failing argument models the filesystem environment: the
paths whose statSync or rmSync throws (e.g. permission denied); for those the
catch block fires, the entry stays on disk and a warning is emitted.  The
result is the directory content left on disk together with the ordered event
trace of the walk. -/
def processDirectory (ignoredFiles failing : List FsPath) :
    FsPath → FsEntries → FsEntries × List WipeEvent
  | _, .nil => (.nil, [])
  | dirPath, .cons name entry rest =>
    let itemPath := dirPath ++ [name]
    let restResult := processDirectory ignoredFiles failing dirPath rest
    if shouldPreservePath ignoredFiles itemPath then
      (.cons name entry restResult.1, restResult.2)
    else
      match entry with
      | .dir children =>
        if ignoredFiles.any (fun ignoredFile => startsWithDir ignoredFile itemPath) then
          let sub := processDirectory ignoredFiles failing itemPath children
          (.cons name (.dir sub.1) restResult.1, sub.2 ++ restResult.2)
        else if pathIn itemPath failing then
          (.cons name (.dir children) restResult.1, .warned itemPath :: restResult.2)
        else
          (restResult.1, .removed itemPath :: restResult.2)
      | .file c =>
        if pathIn itemPath failing then
          (.cons name (.file c) restResult.1, .warned itemPath :: restResult.2)
        else
          (restResult.1, .removed itemPath :: restResult.2)
termination_by structural _ e => e

/-- Embedding of removeAllExceptGitAndIgnored from src/index.ts: process the
repository root (dirPath "." in the source, the empty segment list here). -/
def removeAllExceptGitAndIgnored (ignoredFiles failing : List FsPath)
    (root : FsEntries) : FsEntries × List WipeEvent :=
  processDirectory ignoredFiles failing [] root

/-- Embedding of removeAllExceptGit from the older variant of the main module:
a single pass over the top-level entries that keeps only .git. -/
def removeAllExceptGit (failing : List FsPath) : FsEntries → FsEntries × List WipeEvent
  | .nil => (.nil, [])
  | .cons name entry rest =>
    let restResult := removeAllExceptGit failing rest
    if name == ".git" then
      (.cons name entry restResult.1, restResult.2)
    else if pathIn [name] failing then
      (.cons name entry restResult.1, .warned [name] :: restResult.2)
    else
      (restResult.1, .removed [name] :: restResult.2)

/-- Variant of processDirectory with the recursion branch for directories that
contain a protected descendant removed: such a directory is bulk-deleted like
any other entry.  Used to state that the recursion branch of the source is
unreachable. -/
def processDirectoryNoRecurse (ignoredFiles failing : List FsPath) :
    FsPath → FsEntries → FsEntries × List WipeEvent
  | _, .nil => (.nil, [])
  | dirPath, .cons name entry rest =>
    let itemPath := dirPath ++ [name]
    let restResult := processDirectoryNoRecurse ignoredFiles failing dirPath rest
    if shouldPreservePath ignoredFiles itemPath then
      (.cons name entry restResult.1, restResult.2)
    else
      match entry with
      | .dir children =>
        if pathIn itemPath failing then
          (.cons name (.dir children) restResult.1, .warned itemPath :: restResult.2)
        else
          (restResult.1, .removed itemPath :: restResult.2)
      | .file c =>
        if pathIn itemPath failing then
          (.cons name (.file c) restResult.1, .warned itemPath :: restResult.2)
        else
          (restResult.1, .removed itemPath :: restResult.2)
termination_by structural _ e => e

/-- Filter of directory entries by a predicate on the entry name, keeping
order and subtrees. -/
def filterEntries (keep : String → Bool) : FsEntries → FsEntries
  | .nil => .nil
  | .cons n t r =>
    if keep n then .cons n t (filterEntries keep r) else filterEntries keep r

/-- The event trace of one directory pass: nothing for a preserved entry, a
warning for a non-preserved entry whose removal fails, a removal otherwise. -/
def wipeEvents (ignoredFiles failing : List FsPath) (dirPath : FsPath) :
    FsEntries → List WipeEvent
  | .nil => []
  | .cons n _ r =>
    let itemPath := dirPath ++ [n]
    if shouldPreservePath ignoredFiles itemPath then
      wipeEvents ignoredFiles failing dirPath r
    else if pathIn itemPath failing then
      .warned itemPath :: wipeEvents ignoredFiles failing dirPath r
    else
      .removed itemPath :: wipeEvents ignoredFiles failing dirPath r

/-- The keep-predicate that characterizes one pass of the walk: an entry stays
on disk when it is preserved or its removal failed. -/
def wipeKeep (ignoredFiles failing : List FsPath) (dirPath : FsPath) (n : String) : Bool :=
  shouldPreservePath ignoredFiles (dirPath ++ [n]) || pathIn (dirPath ++ [n]) failing

/-- Character-level glob matching with a star wildcard, via a fuel counter so
that the definition is structural; each recursive call shrinks the combined
length of pattern and name by at least one, so the initial fuel below always
suffices. -/
def matchCharsFuel : Nat → List Char → List Char → Bool
  | 0, _, _ => false
  | _ + 1, [], [] => true
  | _ + 1, [], _ :: _ => false
  | fuel + 1, '*' :: ps, [] => matchCharsFuel fuel ps []
  | fuel + 1, '*' :: ps, c :: cs =>
    matchCharsFuel fuel ps (c :: cs) || matchCharsFuel fuel ('*' :: ps) cs
  | _ + 1, _ :: _, [] => false
  | fuel + 1, p :: ps, c :: cs => p == c && matchCharsFuel fuel ps cs

/-- A glob pattern segment matched against one name segment, character-wise. -/
def matchChars (p s : List Char) : Bool :=
  matchCharsFuel (p.length + s.length + 1) p s

/-- Whether a name is hidden (dot-prefixed). -/
def isHiddenName (n : String) : Bool :=
  match n.toList with
  | '.' :: _ => true
  | _ => false

/-- Modelled from the documented semantics of the external glob dependency:
one pattern segment against one name segment.  Without the dot option a
hidden name is only matched by a pattern segment that itself starts with a
literal dot (the pattern explicitly requests dot-files); with the dot
option the restriction is dropped. -/
def matchSegment (dot : Bool) (pat name : String) : Bool :=
  if !dot && isHiddenName name && !isHiddenName pat then false
  else matchChars pat.toList name.toList

/-- Modelled from the documented semantics of the external glob dependency:
segment-wise matching of a pattern against a relative path, where a double
star matches any number of path segments (subject to the same hidden-name
rule when the dot option is off).  Fuel as in matchCharsFuel. -/
def matchSegsFuel (dot : Bool) : Nat → List String → List String → Bool
  | 0, _, _ => false
  | _ + 1, [], [] => true
  | _ + 1, [], _ :: _ => false
  | fuel + 1, p :: ps, path =>
    if p == "**" then
      match path with
      | [] => matchSegsFuel dot fuel ps []
      | n :: ns =>
        matchSegsFuel dot fuel ps (n :: ns) ||
        ((dot || !isHiddenName n) && matchSegsFuel dot fuel (p :: ps) ns)
    else
      match path with
      | [] => false
      | n :: ns => matchSegment dot p n && matchSegsFuel dot fuel ps ns

/-- Glob matching of a pattern (as segments) against a path (as segments). -/
def matchSegs (dot : Bool) (pat path : List String) : Bool :=
  matchSegsFuel dot (pat.length + path.length + 1) pat path

/-- Variant of matchSegsFuel written from the words of the spec sentence that
hidden entries are matchable only when the pattern explicitly requests
dot-files: this variant has no hidden-name restriction at all, as if every
entry were matchable.  Compared against the embedding to show the dot option
used by the sources makes the restriction vanish. -/
def matchSegsNoHiddenFuel : Nat → List String → List String → Bool
  | 0, _, _ => false
  | _ + 1, [], [] => true
  | _ + 1, [], _ :: _ => false
  | fuel + 1, p :: ps, path =>
    if p == "**" then
      match path with
      | [] => matchSegsNoHiddenFuel fuel ps []
      | n :: ns =>
        matchSegsNoHiddenFuel fuel ps (n :: ns) || matchSegsNoHiddenFuel fuel (p :: ps) ns
    else
      match path with
      | [] => false
      | n :: ns => matchChars p.toList n.toList && matchSegsNoHiddenFuel fuel ps ns

/-- Unrestricted variant of matchSegs (see matchSegsNoHiddenFuel). -/
def matchSegsNoHidden (pat path : List String) : Bool :=
  matchSegsNoHiddenFuel (pat.length + path.length + 1) pat path

/-- Splitting a slash-joined pattern or path string into its segments. -/
def splitSlashAux : List Char → List Char → List String
  | acc, [] => [String.mk acc.reverse]
  | acc, '/' :: cs => String.mk acc.reverse :: splitSlashAux [] cs
  | acc, c :: cs => splitSlashAux (c :: acc) cs
termination_by structural _ cs => cs

/-- Segments of a slash-joined string. -/
def splitSlash (s : String) : List String :=
  splitSlashAux [] s.toList

/-- Slash-joined string form of a segment path. -/
def joinPath (p : FsPath) : String :=
  String.intercalate "/" p

mutual

/-- Relative paths of all entries inside one subtree. -/
def subPathsTree : FsTree → List FsPath
  | .file _ => []
  | .dir cs => allRelPaths cs

/-- Relative paths of all descendants of a directory listing, files and
directories alike, as the external glob dependency enumerates them. -/
def allRelPaths : FsEntries → List FsPath
  | .nil => []
  | .cons n t r =>
    [n] :: (subPathsTree t).map (fun p => n :: p) ++ allRelPaths r

end

/-- Modelled from the documented semantics of the external glob dependency:
the ignore option with the fixed patterns node_modules/** and .git/**
excludes every strict descendant of those two directories (the directories
themselves are not excluded by a trailing double-star pattern). -/
def underIgnored : FsPath → Bool
  | "node_modules" :: _ :: _ => true
  | ".git" :: _ :: _ => true
  | _ => false

/-- Lexicographic order on character lists, modelling the default JavaScript
string comparison used by Array.sort. -/
def charListLe : List Char → List Char → Bool
  | [], _ => true
  | _ :: _, [] => false
  | a :: as, b :: bs => if a == b then charListLe as bs else decide (a < b)

/-- Order on paths via their slash-joined string form. -/
def pathLe (p q : FsPath) : Bool :=
  charListLe (joinPath p).toList (joinPath q).toList

/-- Insertion into a sorted list of paths. -/
def insertSorted (x : FsPath) : List FsPath → List FsPath
  | [] => [x]
  | y :: ys => if pathLe x y then x :: y :: ys else y :: insertSorted x ys

/-- Insertion sort of paths by their slash-joined form, modelling the
Array.sort call of the sources. -/
def sortPaths : List FsPath → List FsPath
  | [] => []
  | x :: xs => insertSorted x (sortPaths xs)

/-- Deduplication keeping first occurrences, modelling the JavaScript Set
accumulation of findEnvFiles. -/
def dedupPathsAux (seen : List FsPath) : List FsPath → List FsPath
  | [] => []
  | p :: ps =>
    if pathIn p seen then dedupPathsAux seen ps
    else p :: dedupPathsAux (p :: seen) ps

/-- Deduplication of a path list, first occurrences kept. -/
def dedupPaths : List FsPath → List FsPath :=
  dedupPathsAux []

/-- Embedding of findGlobFiles from src/index.ts: one glob pattern evaluated
against the working tree with the dot option enabled and the fixed ignore
patterns, result sorted.  Paths stay in segment form (the source returns
their slash-joined strings). -/
def findGlobFiles (pattern : String) (tree : FsEntries) : List FsPath :=
  sortPaths ((allRelPaths tree).filter
    (fun p => matchSegs true (splitSlash pattern) p && !underIgnored p))

/-- Variant of findGlobFiles using the unrestricted matcher (see
matchSegsNoHiddenFuel). -/
def findGlobFilesNoHiddenRule (pattern : String) (tree : FsEntries) : List FsPath :=
  sortPaths ((allRelPaths tree).filter
    (fun p => matchSegsNoHidden (splitSlash pattern) p && !underIgnored p))

/-- The fixed battery of secret-file patterns of findEnvFiles in
src/index.ts. -/
def envPatterns : List String :=
  [".env", ".env.*", "*.env", ".*.env", "**/.env", "**/.env.*", "**/.*env", "**/*.env"]

/-- Embedding of findEnvFiles from src/index.ts: every pattern of the battery
evaluated with the dot option and the fixed ignore patterns, matches unioned
through a set (first occurrences kept), result sorted. -/
def findEnvFiles (tree : FsEntries) : List FsPath :=
  sortPaths (dedupPaths (envPatterns.flatMap (fun pattern =>
    (allRelPaths tree).filter
      (fun p => matchSegs true (splitSlash pattern) p && !underIgnored p))))

/-- Variant of findEnvFiles using the unrestricted matcher (see
matchSegsNoHiddenFuel). -/
def findEnvFilesNoHiddenRule (tree : FsEntries) : List FsPath :=
  sortPaths (dedupPaths (envPatterns.flatMap (fun pattern =>
    (allRelPaths tree).filter
      (fun p => matchSegsNoHidden (splitSlash pattern) p && !underIgnored p))))

/-- The command-line options of gitFresh (src/index.ts). -/
structure GitFreshOptions where
  ignoreEnvFiles : Bool := false
  skipConfirmation : Bool := false
  ignoreGlobFiles : Option String := none

/-- The interactive answer to the env-file prompt: ignore all, ignore none,
or an individually selected list. -/
inductive EnvChoice where
  | all : EnvChoice
  | none : EnvChoice
  | select (files : List FsPath) : EnvChoice

/-- Embedding of selectEnvFilesToIgnore from src/index.ts, with the
interactive answer as an explicit input.  The inquirer checkbox only returns
entries among the presented choices, so an individually selected list is
intersected with the detected files. -/
def selectEnvFilesToIgnore (envFiles : List FsPath) (choice : EnvChoice) : List FsPath :=
  if envFiles.length == 0 then []
  else
    match choice with
    | .all => envFiles
    | .none => []
    | .select files => envFiles.filter (fun f => pathIn f files)

/-- The state of the repository and of the external git collaborator, as far
as the claims observe it: the output of git status --porcelain (none when the
command itself throws), success flags for the three black-box git commands,
the set of paths whose filesystem removal fails, the working tree, the
tracked content of the last commit, and the number of stash entries. -/
structure GitWorld where
  statusOutput : Option String
  stashPushOk : Bool
  restoreOk : Bool
  stashPopOk : Bool
  failing : List FsPath
  tree : FsEntries
  committed : FsEntries
  stashCount : Nat

/-- Embedding of isGitRepository from src/index.ts: existsSync of the entry
named .git in the current directory. -/
def isGitRepository (w : GitWorld) : Bool :=
  hasEntry w.tree ".git"

/-- Leading and trailing whitespace removed from a character list. -/
def trimChars (cs : List Char) : List Char :=
  ((cs.dropWhile Char.isWhitespace).reverse.dropWhile Char.isWhitespace).reverse

/-- Whitespace trim of a string, as the JavaScript trim method. -/
def strTrim (s : String) : String :=
  String.mk (trimChars s.toList)

/-- Embedding of hasChangesToStash from src/index.ts: the trimmed output of
git status --porcelain is nonempty; when the command throws, the catch block
returns false. -/
def hasChangesToStash (w : GitWorld) : Bool :=
  match w.statusOutput with
  | some status => decide (0 < (strTrim status).length)
  | none => false

/-- Entries named .git of a directory listing. -/
def keepGitOnly : FsEntries → FsEntries :=
  filterEntries (fun n => n == ".git")

/-- Concatenation of two directory listings. -/
def entriesAppend : FsEntries → FsEntries → FsEntries
  | .nil, e => e
  | .cons n t r, e => .cons n t (entriesAppend r e)

/-- Modelled from the spec: the collaborator command git stash push -u as a
black box.  On success the uncommitted and untracked work moves into a new
stash entry and the working tree reverts to the committed state with the
version-control metadata kept; only the presence of the new entry is tracked,
the spec treating a stash as an abstract handle. -/
def stashPushEffect (w : GitWorld) : GitWorld :=
  { w with tree := entriesAppend (keepGitOnly w.tree) w.committed,
           stashCount := w.stashCount + 1 }

/-- Modelled from the spec: the collaborator command git restore . as a black
box: tracked content of the last commit reappears in the working tree, while
entries already present (the preserved protected files) are kept. -/
def restoreEffect (w : GitWorld) : GitWorld :=
  { w with
    tree := entriesAppend w.tree (filterEntries (fun n => !(hasEntry w.tree n)) w.committed) }

/-- Modelled from the spec: the collaborator command git stash pop as a black
box; on success the stash entry is consumed.  The reapplied hunks are not
observed by any claim, so the tree is left as restored. -/
def stashPopEffect (w : GitWorld) : GitWorld :=
  { w with stashCount := w.stashCount - 1 }

/-- The phases of one run, as the spec names them. -/
inductive Phase where
  | init : Phase
  | dirtyCheck : Phase
  | stashing : Phase
  | wiping : Phase
  | restoring : Phase
  | popping : Phase
  | done : Phase
deriving DecidableEq

/-- The observable outcome of one gitFresh run: the final world, the thrown
error if any (the source wraps it before rethrowing to the CLI), the warning
messages printed, whether this run created a stash, and the trace of phases
entered in order. -/
structure RunOutcome where
  world : GitWorld
  fatalError : Option String
  warnings : List String
  stashCreated : Bool
  trace : List Phase

/-- Console warning text of a wipe event, if any. -/
def wipeWarningMsg : WipeEvent → Option String
  | .warned p => some ("Warning: Could not remove " ++ joinPath p)
  | .removed _ => none

/-- Steps 2 to 4 of gitFresh in src/index.ts, from the wipe on: remove
everything except .git and the protected files, restore tracked content, then
pop the stash if this run created one; a pop failure is caught and only
warned about. -/
def runFromWipe (filesToIgnore : List FsPath) (stashCreated : Bool)
    (tr : List Phase) (w : GitWorld) : RunOutcome :=
  let wres := removeAllExceptGitAndIgnored filesToIgnore w.failing w.tree
  let w1 := { w with tree := wres.1 }
  let wipeWarns := wres.2.filterMap wipeWarningMsg
  if w.restoreOk then
    let w2 := restoreEffect w1
    if stashCreated then
      if w.stashPopOk then
        { world := stashPopEffect w2, fatalError := none, warnings := wipeWarns,
          stashCreated := true,
          trace := tr ++ [Phase.wiping, Phase.restoring, Phase.popping, Phase.done] }
      else
        { world := w2, fatalError := none,
          warnings := wipeWarns ++
            ["Could not apply stashed changes (conflicts may exist)",
             "Run \"git stash list\" to see your stashed changes"],
          stashCreated := true,
          trace := tr ++ [Phase.wiping, Phase.restoring, Phase.popping, Phase.done] }
    else
      { world := w2, fatalError := none, warnings := wipeWarns, stashCreated := false,
        trace := tr ++ [Phase.wiping, Phase.restoring, Phase.done] }
  else
    { world := w1,
      fatalError := some "Failed to reset Git working directory: Git command failed: restore .",
      warnings := wipeWarns, stashCreated := stashCreated,
      trace := tr ++ [Phase.wiping, Phase.restoring] }

/-- Embedding of gitFresh from src/index.ts.  The interactive answer to the
env-file prompt is an explicit input.  A thrown error appears as the
fatalError field, already wrapped as by the try-catch structure of the
source; progress text is not modelled except for the warnings the claims
observe. -/
def gitFresh (opts : GitFreshOptions) (choice : EnvChoice) (w : GitWorld) : RunOutcome :=
  if !(isGitRepository w) then
    { world := w,
      fatalError := some "This is not a Git repository. Please run this command in a Git repository.",
      warnings := [], stashCreated := false, trace := [Phase.init] }
  else
    let globFiles :=
      match opts.ignoreGlobFiles with
      | some pattern => findGlobFiles pattern w.tree
      | none => []
    let envChosen :=
      if opts.ignoreEnvFiles then
        let envFiles := findEnvFiles w.tree
        if 0 < envFiles.length then
          if opts.skipConfirmation then envFiles
          else selectEnvFilesToIgnore envFiles choice
        else []
      else []
    let filesToIgnore := globFiles ++ envChosen
    if hasChangesToStash w then
      if w.stashPushOk then
        runFromWipe filesToIgnore true [Phase.init, Phase.dirtyCheck, Phase.stashing]
          (stashPushEffect w)
      else
        { world := w,
          fatalError := some "Failed to reset Git working directory: Cannot proceed: Failed to stash changes. Your files are safe, but git-fresh cannot continue without successfully stashing changes.",
          warnings := [], stashCreated := false,
          trace := [Phase.init, Phase.dirtyCheck, Phase.stashing] }
    else
      runFromWipe filesToIgnore false [Phase.init, Phase.dirtyCheck] w

/-- Embedding of the CLI action in src/cli.ts: an error thrown by gitFresh is
printed and the process exits 1, otherwise the process ends normally with
exit code 0. -/
def cliExitCode (o : RunOutcome) : Nat :=
  match o.fatalError with
  | some _ => 1
  | none => 0

/-- The outcome components a user observes: final tree, stash count, error,
warnings, stash flag, phase trace. -/
def observables (o : RunOutcome) :
    FsEntries × Nat × Option String × List String × Bool × List Phase :=
  (o.world.tree, o.world.stashCount, o.fatalError, o.warnings, o.stashCreated, o.trace)

/-- Decides whether every console warning of a wipe trace comes after all
removals, i.e. whether the warnings were surfaced at the end of the phase
rather than emitted during the walk. -/
def warningsAtEnd : List WipeEvent → Bool
  | [] => true
  | .removed _ :: rest => warningsAtEnd rest
  | .warned _ :: rest =>
    rest.all (fun ev =>
      match ev with
      | .warned _ => true
      | .removed _ => false)

/-- Example tree: a directory a holding a protected file a/b and an
unprotected sibling a/c. -/
def exTreeAncestor : FsEntries :=
  .cons "a" (.dir (.cons "b" (.file "s") (.cons "c" (.file "x") .nil))) .nil

/-- Example protected set holding the single path a/b. -/
def exProtected : List FsPath :=
  [["a", "b"]]

/-- Example tree with two top-level files, used with a failing removal. -/
def exTreeWarn : FsEntries :=
  .cons "a" (.file "1") (.cons "b" (.file "2") .nil)

/-- Example tree with a single hidden entry. -/
def exTreeHidden : FsEntries :=
  .cons ".secret" (.file "k") .nil

/-- Example tree holding a .git directory and one plain file. -/
def exGitTree : FsEntries :=
  .cons ".git" (.dir .nil) (.cons "x" (.file "y") .nil)

/-- Example repository world: a .git directory, one tracked file with
uncommitted changes, all collaborator commands succeeding. -/
def exWorld : GitWorld :=
  { statusOutput := some " M file.txt",
    stashPushOk := true,
    restoreOk := true,
    stashPopOk := true,
    failing := [],
    tree := .cons ".git" (.dir .nil) (.cons "file.txt" (.file "old") .nil),
    committed := .cons "file.txt" (.file "head") .nil,
    stashCount := 0 }

theorem startsWithDir_subsumed (ignoredFiles : List FsPath) (itemPath : FsPath)
    (h : shouldPreservePath ignoredFiles itemPath = false) :
    ignoredFiles.any (fun ignoredFile => startsWithDir ignoredFile itemPath) = false := by
  simp only [shouldPreservePath, Bool.or_eq_false_iff] at h
  exact h.2

theorem processDirectory_eq_filter (ignoredFiles failing : List FsPath) (dirPath : FsPath) :
    ∀ e : FsEntries,
      processDirectory ignoredFiles failing dirPath e =
        (filterEntries (wipeKeep ignoredFiles failing dirPath) e,
         wipeEvents ignoredFiles failing dirPath e)
  | .nil => rfl
  | .cons n t r => by
    have ih := processDirectory_eq_filter ignoredFiles failing dirPath r
    rw [processDirectory.eq_def]
    cases h : shouldPreservePath ignoredFiles (dirPath ++ [n]) with
    | true =>
      simp [filterEntries, wipeEvents, wipeKeep, h, ih]
    | false =>
      have hsub := startsWithDir_subsumed ignoredFiles (dirPath ++ [n]) h
      cases t with
      | file c =>
        cases hf : pathIn (dirPath ++ [n]) failing with
        | true => simp [filterEntries, wipeEvents, wipeKeep, h, hf, ih]
        | false => simp [filterEntries, wipeEvents, wipeKeep, h, hf, ih]
      | dir children =>
        cases hf : pathIn (dirPath ++ [n]) failing with
        | true =>
          simp [filterEntries, wipeEvents, wipeKeep, h, hsub, hf, ih]
        | false =>
          simp [filterEntries, wipeEvents, wipeKeep, h, hsub, hf, ih]

theorem processDirectoryNoRecurse_eq_filter (ignoredFiles failing : List FsPath)
    (dirPath : FsPath) :
    ∀ e : FsEntries,
      processDirectoryNoRecurse ignoredFiles failing dirPath e =
        (filterEntries (wipeKeep ignoredFiles failing dirPath) e,
         wipeEvents ignoredFiles failing dirPath e)
  | .nil => rfl
  | .cons n t r => by
    have ih := processDirectoryNoRecurse_eq_filter ignoredFiles failing dirPath r
    rw [processDirectoryNoRecurse.eq_def]
    cases h : shouldPreservePath ignoredFiles (dirPath ++ [n]) with
    | true =>
      simp [filterEntries, wipeEvents, wipeKeep, h, ih]
    | false =>
      cases t with
      | file c =>
        cases hf : pathIn (dirPath ++ [n]) failing with
        | true =>
          simp [filterEntries, wipeEvents, wipeKeep, h, hf, ih]
        | false =>
          simp [filterEntries, wipeEvents, wipeKeep, h, hf, ih]
      | dir children =>
        cases hf : pathIn (dirPath ++ [n]) failing with
        | true =>
          simp [filterEntries, wipeEvents, wipeKeep, h, hf, ih]
        | false =>
          simp [filterEntries, wipeEvents, wipeKeep, h, hf, ih]

theorem findEntry_filterEntries (keep : String → Bool) (name : String) :
    ∀ e : FsEntries,
      findEntry (filterEntries keep e) name =
        if keep name then findEntry e name else none
  | .nil => by simp [filterEntries, findEntry]
  | .cons n t r => by
    have ih := findEntry_filterEntries keep name r
    by_cases hn : n = name
    · subst hn
      cases hk : keep n with
      | true => simp [filterEntries, hk, findEntry]
      | false => simp [filterEntries, hk, findEntry, ih]
    · have hne : (n == name) = false := by simp [hn]
      cases hk : keep n with
      | true => simp [filterEntries, hk, findEntry, hne, ih]
      | false => simp [filterEntries, hk, findEntry, hne, ih]

theorem lookupPath_filterEntries (keep : String → Bool) (e : FsEntries)
    (n : String) (rest : FsPath) :
    lookupPath (filterEntries keep e) (n :: rest) =
      if keep n then lookupPath e (n :: rest) else none := by
  cases rest with
  | nil =>
    simp only [lookupPath]
    exact findEntry_filterEntries keep n e
  | cons m ms =>
    simp only [lookupPath, findEntry_filterEntries keep n e]
    cases hk : keep n with
    | true => simp
    | false => simp

theorem pathIn_iff_mem (p : FsPath) :
    ∀ l : List FsPath, pathIn p l = true ↔ p ∈ l
  | [] => by simp [pathIn]
  | q :: qs => by
    have ih := pathIn_iff_mem p qs
    simp [pathIn, ih]

theorem startsWithDir_self_cons (n m : String) (ms : List String) :
    startsWithDir (n :: m :: ms) [n] = true := by
  simp [startsWithDir]

theorem shouldPreservePath_of_pathIn (P : List FsPath) (n : String) (rest : List String)
    (h : pathIn (n :: rest) P = true) :
    shouldPreservePath P [n] = true := by
  cases rest with
  | nil =>
    simp only [shouldPreservePath, Bool.or_eq_true]
    exact Or.inl (Or.inr h)
  | cons m ms =>
    simp only [shouldPreservePath, Bool.or_eq_true]
    refine Or.inr (List.any_eq_true.mpr ?_)
    exact ⟨n :: m :: ms, (pathIn_iff_mem _ P).mp h, startsWithDir_self_cons n m ms⟩

theorem hasEntry_filterEntries (keep : String → Bool) (name : String) (e : FsEntries) :
    hasEntry (filterEntries keep e) name = (keep name && hasEntry e name) := by
  cases hk : keep name with
  | true => simp [hasEntry, findEntry_filterEntries keep name e, hk]
  | false => simp [hasEntry, findEntry_filterEntries keep name e, hk]

theorem warned_mem_wipeEvents (P failing : List FsPath) (dirPath : FsPath) (n : String) :
    ∀ e : FsEntries,
      (WipeEvent.warned (dirPath ++ [n]) ∈ wipeEvents P failing dirPath e) ↔
        (hasEntry e n = true ∧ shouldPreservePath P (dirPath ++ [n]) = false ∧
         pathIn (dirPath ++ [n]) failing = true)
  | .nil => by simp [wipeEvents, hasEntry, findEntry]
  | .cons m t r => by
    have ih := warned_mem_wipeEvents P failing dirPath n r
    by_cases hmn : m = n
    · subst hmn
      cases hp : shouldPreservePath P (dirPath ++ [m]) with
      | true => simp [wipeEvents, hp, hasEntry, findEntry, ih]
      | false =>
        cases hf : pathIn (dirPath ++ [m]) failing with
        | true => simp [wipeEvents, hp, hf, hasEntry, findEntry]
        | false => simp [wipeEvents, hp, hf, hasEntry, findEntry, ih]
    · have hne2 : (m == n) = false := by simp [hmn]
      cases hp : shouldPreservePath P (dirPath ++ [m]) with
      | true => simp [wipeEvents, hp, hasEntry, findEntry, hne2, ih]
      | false =>
        cases hf : pathIn (dirPath ++ [m]) failing with
        | true => simp [wipeEvents, hp, hf, hasEntry, findEntry, hne2, ih, hmn, Ne.symm hmn]
        | false => simp [wipeEvents, hp, hf, hasEntry, findEntry, hne2, ih, hmn, Ne.symm hmn]

theorem removed_mem_wipeEvents (P failing : List FsPath) (dirPath : FsPath) (n : String) :
    ∀ e : FsEntries,
      (WipeEvent.removed (dirPath ++ [n]) ∈ wipeEvents P failing dirPath e) ↔
        (hasEntry e n = true ∧ shouldPreservePath P (dirPath ++ [n]) = false ∧
         pathIn (dirPath ++ [n]) failing = false)
  | .nil => by simp [wipeEvents, hasEntry, findEntry]
  | .cons m t r => by
    have ih := removed_mem_wipeEvents P failing dirPath n r
    by_cases hmn : m = n
    · subst hmn
      cases hp : shouldPreservePath P (dirPath ++ [m]) with
      | true => simp [wipeEvents, hp, hasEntry, findEntry, ih]
      | false =>
        cases hf : pathIn (dirPath ++ [m]) failing with
        | true => simp [wipeEvents, hp, hf, hasEntry, findEntry, ih]
        | false => simp [wipeEvents, hp, hf, hasEntry, findEntry]
    · have hne2 : (m == n) = false := by simp [hmn]
      cases hp : shouldPreservePath P (dirPath ++ [m]) with
      | true => simp [wipeEvents, hp, hasEntry, findEntry, hne2, ih]
      | false =>
        cases hf : pathIn (dirPath ++ [m]) failing with
        | true => simp [wipeEvents, hp, hf, hasEntry, findEntry, hne2, ih, hmn, Ne.symm hmn]
        | false => simp [wipeEvents, hp, hf, hasEntry, findEntry, hne2, ih, hmn, Ne.symm hmn]

theorem removeAllExceptGit_finds_git (failing : List FsPath) :
    ∀ e : FsEntries,
      findEntry (removeAllExceptGit failing e).1 ".git" = findEntry e ".git"
  | .nil => rfl
  | .cons m t r => by
    have ih := removeAllExceptGit_finds_git failing r
    by_cases hm : m = ".git"
    · subst hm
      simp [removeAllExceptGit, findEntry]
    · have hne : (m == ".git") = false := by simp [hm]
      cases hf : pathIn [m] failing with
      | true => simp [removeAllExceptGit, hne, hf, findEntry, ih]
      | false => simp [removeAllExceptGit, hne, hf, findEntry, ih]

theorem lookup_removeAll (P failing : List FsPath) (root : FsEntries) (n : String)
    (rest : List String) :
    lookupPath (removeAllExceptGitAndIgnored P failing root).1 (n :: rest) =
      if wipeKeep P failing [] n then lookupPath root (n :: rest) else none := by
  rw [removeAllExceptGitAndIgnored, processDirectory_eq_filter]
  exact lookupPath_filterEntries (wipeKeep P failing []) root n rest

/-- Claim C4: for every input tree and protected set, a directory with a
protected descendant is already skipped by shouldPreservePath before the
hasPreservedContent check of processDirectory runs, so the branch recursing
into such a directory is unreachable and the function is extensionally equal
to the variant with that branch removed: those directories are skipped whole
and their unprotected children are never deleted. -/
theorem processDirectory_recursion_branch_dead (ignoredFiles failing : List FsPath)
    (dirPath : FsPath) (e : FsEntries) :
    processDirectory ignoredFiles failing dirPath e =
      processDirectoryNoRecurse ignoredFiles failing dirPath e :=
  (processDirectory_eq_filter ignoredFiles failing dirPath e).trans
    (processDirectoryNoRecurse_eq_filter ignoredFiles failing dirPath e).symm

/-- Claim C1 is refuted at this input: with protected set containing only the
path a to b, the path a to c existed before the wipe, is not protected, is
not an ancestor of a protected path and is not the metadata directory, yet it
still exists after the wipe, because the whole directory a was skipped as an
ancestor of a protected path instead of having its unprotected children
deleted. -/
theorem wipe_total_deletion_c1_counterexample :
    lookupPath exTreeAncestor ["a", "c"] = some (.file "x") ∧
    pathIn ["a", "c"] exProtected = false ∧
    (exProtected.any fun f => startsWithDir f ["a", "c"]) = false ∧
    (["a", "c"] : FsPath) ≠ [".git"] ∧
    lookupPath (removeAllExceptGitAndIgnored exProtected [] exTreeAncestor).1 ["a", "c"]
      = some (.file "x") :=
  ⟨rfl, rfl, rfl, by decide, rfl⟩

/-- Claim C1 as amended: after the wipe (with no removal failures) a path
survives, with unchanged content, exactly when its top-level entry is
preserved, that is protected, an ancestor of a protected path, or the
metadata directory; consequently every protected path that existed before the
wipe still exists unchanged, and the metadata directory survives.  A
directory containing a protected descendant is preserved whole, together with
its unprotected children, rather than being recursed into. -/
theorem wipe_preservation_c1_amended (P : List FsPath) (root : FsEntries) :
    (∀ n rest, lookupPath (removeAllExceptGitAndIgnored P [] root).1 (n :: rest) =
        if shouldPreservePath P [n] then lookupPath root (n :: rest) else none) ∧
    (∀ p t, pathIn p P = true → lookupPath root p = some t →
        lookupPath (removeAllExceptGitAndIgnored P [] root).1 p = some t) ∧
    findEntry (removeAllExceptGitAndIgnored P [] root).1 ".git" = findEntry root ".git" := by
  have h1 : ∀ n rest, lookupPath (removeAllExceptGitAndIgnored P [] root).1 (n :: rest) =
      if shouldPreservePath P [n] then lookupPath root (n :: rest) else none := by
    intro n rest
    rw [lookup_removeAll]
    simp [wipeKeep, pathIn]
  refine ⟨h1, ?_, ?_⟩
  · intro p t hin hl
    cases p with
    | nil => simp [lookupPath] at hl
    | cons n rest =>
      rw [h1 n rest, if_pos (shouldPreservePath_of_pathIn P n rest hin)]
      exact hl
  · have h3 := h1 ".git" []
    simp only [lookupPath] at h3
    rw [h3, if_pos (by simp [shouldPreservePath])]

theorem wipe_preservation_c1_amended_witness :
    pathIn ["a", "b"] exProtected = true ∧
    lookupPath exTreeAncestor ["a", "b"] = some (.file "s") ∧
    lookupPath (removeAllExceptGitAndIgnored exProtected [] exTreeAncestor).1 ["a", "b"]
      = some (.file "s") :=
  ⟨rfl, rfl,
    (wipe_preservation_c1_amended exProtected exTreeAncestor).2.1 ["a", "b"] (.file "s") rfl rfl⟩

/-- Claim C3: the metadata directory .git is never passed to the deletion
step under any input, a protected pattern that happens to match it included:
shouldPreservePath always accepts it, the wipe leaves the .git entry exactly
as it was, the event trace never contains a removal of it nor even an
attempted removal that failed, and the older variant removeAllExceptGit keeps
it as well. -/
theorem git_dir_never_deleted_c3 (P failing : List FsPath) (root : FsEntries) :
    shouldPreservePath P [".git"] = true ∧
    findEntry (removeAllExceptGitAndIgnored P failing root).1 ".git" = findEntry root ".git" ∧
    WipeEvent.removed [".git"] ∉ (removeAllExceptGitAndIgnored P failing root).2 ∧
    WipeEvent.warned [".git"] ∉ (removeAllExceptGitAndIgnored P failing root).2 ∧
    findEntry (removeAllExceptGit failing root).1 ".git" = findEntry root ".git" := by
  have hpres : shouldPreservePath P [".git"] = true := by
    simp [shouldPreservePath]
  refine ⟨hpres, ?_, ?_, ?_, removeAllExceptGit_finds_git failing root⟩
  · rw [removeAllExceptGitAndIgnored, processDirectory_eq_filter,
      findEntry_filterEntries]
    simp [wipeKeep, hpres]
  · intro hmem
    rw [removeAllExceptGitAndIgnored, processDirectory_eq_filter] at hmem
    have h := (removed_mem_wipeEvents P failing [] ".git" root).mp (by simpa using hmem)
    rw [List.nil_append] at h
    rw [h.2.1] at hpres
    exact Bool.false_ne_true hpres
  · intro hmem
    rw [removeAllExceptGitAndIgnored, processDirectory_eq_filter] at hmem
    have h := (warned_mem_wipeEvents P failing [] ".git" root).mp (by simpa using hmem)
    rw [List.nil_append] at h
    rw [h.2.1] at hpres
    exact Bool.false_ne_true hpres

theorem git_dir_never_deleted_c3_witness :
    shouldPreservePath [[".git"]] [".git"] = true ∧
    findEntry (removeAllExceptGitAndIgnored [[".git"]] [[".git"]] exGitTree).1 ".git"
      = findEntry exGitTree ".git" ∧
    WipeEvent.removed [".git"] ∉ (removeAllExceptGitAndIgnored [[".git"]] [[".git"]] exGitTree).2 :=
  ⟨(git_dir_never_deleted_c3 [[".git"]] [[".git"]] exGitTree).1,
   (git_dir_never_deleted_c3 [[".git"]] [[".git"]] exGitTree).2.1,
   (git_dir_never_deleted_c3 [[".git"]] [[".git"]] exGitTree).2.2.1⟩

/-- Claim C9 is refuted at this input: with one entry failing to delete and a
later entry deleting fine, the console warning for the failed entry is
emitted during the walk, before the later removal, not surfaced at the end of
the phase, and the executor returns no aggregated result to the caller. -/
theorem wipe_result_c9_counterexample :
    (removeAllExceptGitAndIgnored [] [["a"]] exTreeWarn).2
      = [.warned ["a"], .removed ["b"]] ∧
    warningsAtEnd (removeAllExceptGitAndIgnored [] [["a"]] exTreeWarn).2 = false :=
  ⟨rfl, rfl⟩

/-- Claim C9 as amended: the wipe returns no aggregated WipeResult and no
counts; each deletion failure is caught per entry, reported immediately as a
console warning at its position in the walk, the failed entry stays on disk,
and the walk continues past it: an entry is warned about exactly when it
exists, is not preserved and its removal fails; it is removed exactly when it
exists, is not preserved and its removal succeeds; and it stays on disk
exactly when it exists and is preserved or failing. -/
theorem wipe_warnings_c9_amended (P failing : List FsPath) (root : FsEntries) :
    (∀ n, (WipeEvent.warned [n] ∈ (removeAllExceptGitAndIgnored P failing root).2) ↔
        (hasEntry root n = true ∧ shouldPreservePath P [n] = false ∧
         pathIn [n] failing = true)) ∧
    (∀ n, (WipeEvent.removed [n] ∈ (removeAllExceptGitAndIgnored P failing root).2) ↔
        (hasEntry root n = true ∧ shouldPreservePath P [n] = false ∧
         pathIn [n] failing = false)) ∧
    (∀ n, hasEntry (removeAllExceptGitAndIgnored P failing root).1 n
        = (wipeKeep P failing [] n && hasEntry root n)) := by
  refine ⟨?_, ?_, ?_⟩
  · intro n
    rw [removeAllExceptGitAndIgnored, processDirectory_eq_filter]
    have h := warned_mem_wipeEvents P failing [] n root
    rw [List.nil_append] at h
    simpa using h
  · intro n
    rw [removeAllExceptGitAndIgnored, processDirectory_eq_filter]
    have h := removed_mem_wipeEvents P failing [] n root
    rw [List.nil_append] at h
    simpa using h
  · intro n
    rw [removeAllExceptGitAndIgnored, processDirectory_eq_filter]
    simpa using hasEntry_filterEntries (wipeKeep P failing []) n root

theorem wipe_warnings_c9_amended_witness :
    WipeEvent.warned ["a"] ∈ (removeAllExceptGitAndIgnored [] [["a"]] exTreeWarn).2 ∧
    WipeEvent.removed ["b"] ∈ (removeAllExceptGitAndIgnored [] [["a"]] exTreeWarn).2 ∧
    hasEntry (removeAllExceptGitAndIgnored [] [["a"]] exTreeWarn).1 "a" = true :=
  ⟨((wipe_warnings_c9_amended [] [["a"]] exTreeWarn).1 "a").mpr ⟨rfl, rfl, rfl⟩,
   ((wipe_warnings_c9_amended [] [["a"]] exTreeWarn).2.1 "b").mpr ⟨rfl, rfl, rfl⟩,
   ((wipe_warnings_c9_amended [] [["a"]] exTreeWarn).2.2 "a").trans rfl⟩

theorem matchSegsFuel_dot_no_hidden :
    ∀ fuel pat path, matchSegsFuel true fuel pat path = matchSegsNoHiddenFuel fuel pat path := by
  intro fuel
  induction fuel with
  | zero => intro pat path; rfl
  | succ fuel ih =>
    intro pat path
    cases pat with
    | nil => cases path <;> rfl
    | cons p ps =>
      rw [matchSegsFuel.eq_def, matchSegsNoHiddenFuel.eq_def]
      cases hp : (p == "**") with
      | true =>
        cases path with
        | nil => simpa [hp] using ih ps []
        | cons n ns => simp [hp, ih, matchSegment]
      | false =>
        cases path with
        | nil => simp [hp]
        | cons n ns => simp [hp, ih, matchSegment]

theorem matchSegs_dot_no_hidden (pat path : List String) :
    matchSegs true pat path = matchSegsNoHidden pat path :=
  matchSegsFuel_dot_no_hidden (pat.length + path.length + 1) pat path

/-- Claim C8 is refuted at this input: the single-star pattern does not
request dot-files, yet the matcher returns the hidden entry .secret, because
findGlobFiles always enables the dot option of the glob dependency. -/
theorem hidden_matchable_c8_counterexample :
    ((splitSlash "*").any isHiddenName) = false ∧
    isHiddenName ".secret" = true ∧
    findGlobFiles "*" exTreeHidden = [[".secret"]] :=
  ⟨rfl, rfl, rfl⟩

/-- Claim C8 as amended: hidden entries are matchable by every pattern,
whether or not it explicitly requests dot-files: both matchers of the sources
always enable the dot option, which makes the hidden-entry restriction of the
glob dependency vanish, so they coincide with variants that apply no
hidden-entry rule at all. -/
theorem hidden_matchable_c8_amended :
    (∀ pattern tree, findGlobFiles pattern tree = findGlobFilesNoHiddenRule pattern tree) ∧
    (∀ tree, findEnvFiles tree = findEnvFilesNoHiddenRule tree) := by
  have hfun : ∀ (l : List FsPath) (pattern : String),
      l.filter (fun p => matchSegs true (splitSlash pattern) p && !underIgnored p) =
      l.filter (fun p => matchSegsNoHidden (splitSlash pattern) p && !underIgnored p) := by
    intro l pattern
    have : (fun p => matchSegs true (splitSlash pattern) p && !underIgnored p) =
        (fun p => matchSegsNoHidden (splitSlash pattern) p && !underIgnored p) := by
      funext p
      rw [matchSegs_dot_no_hidden]
    rw [this]
  constructor
  · intro pattern tree
    rw [findGlobFiles, findGlobFilesNoHiddenRule, hfun]
  · intro tree
    rw [findEnvFiles, findEnvFilesNoHiddenRule]
    have : (fun pattern => (allRelPaths tree).filter
          (fun p => matchSegs true (splitSlash pattern) p && !underIgnored p)) =
        (fun pattern => (allRelPaths tree).filter
          (fun p => matchSegsNoHidden (splitSlash pattern) p && !underIgnored p)) := by
      funext pattern
      rw [hfun]
    rw [this]

theorem runFromWipe_head (filesToIgnore : List FsPath) (sc : Bool)
    (tr : List Phase) (w : GitWorld) :
    (runFromWipe filesToIgnore sc (Phase.init :: tr) w).trace.head? = some Phase.init := by
  simp only [runFromWipe]
  cases hr : w.restoreOk <;> cases sc <;> cases hp : w.stashPopOk <;> simp [hr, hp]

/-- Claim C10: every run of gitFresh starts with the Init check that the
current directory holds a repository, and when the check fails the run aborts
fatally with exit code 1 before anything is mutated: the world comes back
untouched and no later phase is entered. -/
theorem init_check_c10 (opts : GitFreshOptions) (choice : EnvChoice) (w : GitWorld) :
    (gitFresh opts choice w).trace.head? = some Phase.init ∧
    (isGitRepository w = false →
      (gitFresh opts choice w).fatalError.isSome = true ∧
      (gitFresh opts choice w).world = w ∧
      (gitFresh opts choice w).trace = [Phase.init] ∧
      cliExitCode (gitFresh opts choice w) = 1) := by
  constructor
  · cases hrepo : isGitRepository w with
    | false => simp [gitFresh, hrepo]
    | true =>
      cases hc : hasChangesToStash w with
      | true =>
        cases hpush : w.stashPushOk with
        | true =>
          simp only [gitFresh, hrepo, hc, hpush, Bool.not_true, Bool.false_eq_true,
            if_false, if_true]
          exact runFromWipe_head _ _ _ _
        | false => simp [gitFresh, hrepo, hc, hpush]
      | false =>
        simp only [gitFresh, hrepo, hc, Bool.not_true, Bool.false_eq_true,
          if_false, if_true]
        exact runFromWipe_head _ _ _ _
  · intro hrepo
    simp [gitFresh, hrepo, cliExitCode]

theorem init_check_c10_witness :
    isGitRepository { exWorld with tree := .cons "x" (.file "y") .nil } = false ∧
    (gitFresh {} .all { exWorld with tree := .cons "x" (.file "y") .nil }).world
      = { exWorld with tree := .cons "x" (.file "y") .nil } ∧
    (gitFresh {} .all { exWorld with tree := .cons "x" (.file "y") .nil }).trace
      = [Phase.init] ∧
    cliExitCode (gitFresh {} .all { exWorld with tree := .cons "x" (.file "y") .nil }) = 1 :=
  ⟨rfl,
   ((init_check_c10 {} .all { exWorld with tree := .cons "x" (.file "y") .nil }).2 rfl).2.1,
   ((init_check_c10 {} .all { exWorld with tree := .cons "x" (.file "y") .nil }).2 rfl).2.2.1,
   ((init_check_c10 {} .all { exWorld with tree := .cons "x" (.file "y") .nil }).2 rfl).2.2.2⟩

/-- Claim C2: when the repository is dirty and the stash push fails, gitFresh
throws before the wipe begins: the outcome is fatal (the CLI exits 1), the
world, working tree included, is exactly as the user left it, and the wiping
phase is never entered. -/
theorem stash_failure_c2 (opts : GitFreshOptions) (choice : EnvChoice) (w : GitWorld)
    (hrepo : isGitRepository w = true)
    (hdirty : hasChangesToStash w = true)
    (hpush : w.stashPushOk = false) :
    (gitFresh opts choice w).fatalError.isSome = true ∧
    (gitFresh opts choice w).world = w ∧
    Phase.wiping ∉ (gitFresh opts choice w).trace ∧
    cliExitCode (gitFresh opts choice w) = 1 := by
  simp [gitFresh, hrepo, hdirty, hpush, cliExitCode]

theorem stash_failure_c2_witness :
    isGitRepository { exWorld with stashPushOk := false } = true ∧
    hasChangesToStash { exWorld with stashPushOk := false } = true ∧
    (gitFresh {} .all { exWorld with stashPushOk := false }).world
      = { exWorld with stashPushOk := false } ∧
    Phase.wiping ∉ (gitFresh {} .all { exWorld with stashPushOk := false }).trace ∧
    cliExitCode (gitFresh {} .all { exWorld with stashPushOk := false }) = 1 :=
  ⟨rfl, rfl,
   (stash_failure_c2 {} .all { exWorld with stashPushOk := false } rfl rfl rfl).2.1,
   (stash_failure_c2 {} .all { exWorld with stashPushOk := false } rfl rfl rfl).2.2.1,
   (stash_failure_c2 {} .all { exWorld with stashPushOk := false } rfl rfl rfl).2.2.2⟩

/-- Claim C7: when the dirty check reports no uncommitted changes, no stash
is created, the stashing and popping phases are never entered and the stash
count of the repository is untouched. -/
theorem clean_no_stash_c7 (opts : GitFreshOptions) (choice : EnvChoice) (w : GitWorld)
    (hrepo : isGitRepository w = true)
    (hclean : hasChangesToStash w = false) :
    (gitFresh opts choice w).stashCreated = false ∧
    Phase.stashing ∉ (gitFresh opts choice w).trace ∧
    Phase.popping ∉ (gitFresh opts choice w).trace ∧
    (gitFresh opts choice w).world.stashCount = w.stashCount := by
  cases hr : w.restoreOk with
  | true => simp [gitFresh, hrepo, hclean, runFromWipe, hr, restoreEffect]
  | false => simp [gitFresh, hrepo, hclean, runFromWipe, hr]

theorem clean_no_stash_c7_witness :
    isGitRepository { exWorld with statusOutput := some "" } = true ∧
    hasChangesToStash { exWorld with statusOutput := some "" } = false ∧
    (gitFresh {} .all { exWorld with statusOutput := some "" }).stashCreated = false ∧
    Phase.popping ∉ (gitFresh {} .all { exWorld with statusOutput := some "" }).trace ∧
    (gitFresh {} .all { exWorld with statusOutput := some "" }).world.stashCount = 0 :=
  ⟨rfl, rfl,
   (clean_no_stash_c7 {} .all { exWorld with statusOutput := some "" } rfl rfl).1,
   (clean_no_stash_c7 {} .all { exWorld with statusOutput := some "" } rfl rfl).2.2.1,
   (clean_no_stash_c7 {} .all { exWorld with statusOutput := some "" } rfl rfl).2.2.2⟩

/-- Claim C6: when a stash was created and the pop fails, the run still
completes with overall success (no error, exit code 0), warns the user to
inspect the stash list, and leaves the stash entry intact: the count is the
one the push produced. -/
theorem pop_conflict_c6 (opts : GitFreshOptions) (choice : EnvChoice) (w : GitWorld)
    (hrepo : isGitRepository w = true)
    (hdirty : hasChangesToStash w = true)
    (hpush : w.stashPushOk = true)
    (hrestore : w.restoreOk = true)
    (hpop : w.stashPopOk = false) :
    (gitFresh opts choice w).fatalError = none ∧
    cliExitCode (gitFresh opts choice w) = 0 ∧
    "Run \"git stash list\" to see your stashed changes" ∈ (gitFresh opts choice w).warnings ∧
    (gitFresh opts choice w).stashCreated = true ∧
    (gitFresh opts choice w).world.stashCount = w.stashCount + 1 ∧
    Phase.popping ∈ (gitFresh opts choice w).trace := by
  simp [gitFresh, hrepo, hdirty, hpush, runFromWipe, hrestore, hpop, cliExitCode,
    restoreEffect, stashPushEffect]

theorem pop_conflict_c6_witness :
    hasChangesToStash { exWorld with stashPopOk := false } = true ∧
    cliExitCode (gitFresh {} .all { exWorld with stashPopOk := false }) = 0 ∧
    "Run \"git stash list\" to see your stashed changes"
      ∈ (gitFresh {} .all { exWorld with stashPopOk := false }).warnings ∧
    (gitFresh {} .all { exWorld with stashPopOk := false }).world.stashCount = 1 :=
  ⟨rfl,
   (pop_conflict_c6 {} .all { exWorld with stashPopOk := false } rfl rfl rfl rfl rfl).2.1,
   (pop_conflict_c6 {} .all { exWorld with stashPopOk := false } rfl rfl rfl rfl rfl).2.2.1,
   (pop_conflict_c6 {} .all { exWorld with stashPopOk := false } rfl rfl rfl rfl rfl).2.2.2.2.1⟩

/-- Claim C5: when the status query itself throws (the porcelain command
fails), hasChangesToStash returns false, so the run proceeds to the wipe
phase without creating a stash and behaves observably exactly like a run on a
clean repository (one whose status output is empty). -/
theorem status_error_clean_c5 (opts : GitFreshOptions) (choice : EnvChoice) (w : GitWorld)
    (hrepo : isGitRepository w = true)
    (h : w.statusOutput = none) :
    hasChangesToStash w = false ∧
    (gitFresh opts choice w).stashCreated = false ∧
    Phase.stashing ∉ (gitFresh opts choice w).trace ∧
    Phase.wiping ∈ (gitFresh opts choice w).trace ∧
    observables (gitFresh opts choice w)
      = observables (gitFresh opts choice { w with statusOutput := some "" }) := by
  obtain ⟨so, spush, sre, spop, fl, tr, cm, sc⟩ := w
  simp only at h
  subst h
  have hrepo2 : hasEntry tr ".git" = true := hrepo
  cases sre with
  | true =>
    have hclean : hasChangesToStash ⟨none, spush, true, spop, fl, tr, cm, sc⟩ = false := rfl
    have hclean2 : hasChangesToStash ⟨some "", spush, true, spop, fl, tr, cm, sc⟩ = false := rfl
    refine ⟨hclean, ?_, ?_, ?_, ?_⟩ <;>
      simp [gitFresh, hrepo2, hclean, hclean2, isGitRepository, runFromWipe,
        observables, restoreEffect]
  | false =>
    have hclean : hasChangesToStash ⟨none, spush, false, spop, fl, tr, cm, sc⟩ = false := rfl
    have hclean2 : hasChangesToStash ⟨some "", spush, false, spop, fl, tr, cm, sc⟩ = false := rfl
    refine ⟨hclean, ?_, ?_, ?_, ?_⟩ <;>
      simp [gitFresh, hrepo2, hclean, hclean2, isGitRepository, runFromWipe,
        observables]

theorem status_error_clean_c5_witness :
    hasChangesToStash { exWorld with statusOutput := none } = false ∧
    (gitFresh {} .all { exWorld with statusOutput := none }).stashCreated = false ∧
    Phase.wiping ∈ (gitFresh {} .all { exWorld with statusOutput := none }).trace ∧
    observables (gitFresh {} .all { exWorld with statusOutput := none })
      = observables (gitFresh {} .all
          { { exWorld with statusOutput := none } with statusOutput := some "" }) :=
  ⟨rfl,
   (status_error_clean_c5 {} .all { exWorld with statusOutput := none } rfl rfl).2.1,
   (status_error_clean_c5 {} .all { exWorld with statusOutput := none } rfl rfl).2.2.2.1,
   (status_error_clean_c5 {} .all { exWorld with statusOutput := none } rfl rfl).2.2.2.2⟩
